import Mathlib

/-!
Shallow embedding of the table utilities of `src/pandas.py` (`frame_info`,
`common_columns`, `drop_columns`, `categorize`, `negative_down_sample`,
`column_cut`) and proofs of the specified properties.

Modelling conventions:
* a pandas `DataFrame` is a rectangular table, i.e. an ordered list of named
  columns; a cell is `Option Value`, where `none` models a missing entry (NaN);
* library errors (`KeyError`, `AttributeError`, `ValueError`,
  `ZeroDivisionError`) are explicit `PyError` values, and fallible functions
  return `Except PyError _`;
* floating point ratios are modelled exactly, as `ℚ` extended with the IEEE
  special values `nan` and `+inf` produced by `0/0` and `x/0` (`PFloat`);
* the random row sampler used by `DataFrame.sample` is an explicit oracle
  argument (a function producing the chosen row indices), so that sampling
  functions stay deterministic and the theorems quantify over the oracle.
-/

/-- Cell payloads occurring in a table: integer and string values. -/
inductive Value where
  | vInt : Int → Value
  | vStr : String → Value
  deriving DecidableEq, Repr

/-- A table cell; `none` models a missing entry (NaN). -/
abbrev Cell := Option Value

/-- A rectangular table: an ordered sequence of named columns, each column a
list of cells.  Models `pd.DataFrame`. -/
structure DataFrame where
  cols : List (String × List Cell)
  deriving DecidableEq, Repr

/-- Column names, in column order (`frame.columns`). -/
def DataFrame.names (df : DataFrame) : List String :=
  df.cols.map Prod.fst

/-- Number of columns (second component of `frame.shape`). -/
def DataFrame.ncol (df : DataFrame) : Nat :=
  df.cols.length

/-- Number of rows (first component of `frame.shape`); in this column-oriented
model a table with no columns has zero rows. -/
def DataFrame.nrow (df : DataFrame) : Nat :=
  match df.cols with
  | [] => 0
  | p :: _ => p.2.length

/-- Rectangularity invariant of a pandas frame: every column has `nrow`
entries. -/
def DataFrame.Rect (df : DataFrame) : Prop :=
  ∀ p ∈ df.cols, p.2.length = df.nrow

/-- Read a column by name (the pandas `frame[c]` read); `none` when the label
is absent (pandas raises `KeyError` there). -/
def DataFrame.getCol? (df : DataFrame) (c : String) : Option (List Cell) :=
  (df.cols.find? (fun p => p.1 == c)).map Prod.snd

/-- Write a column by name (the pandas `frame[c] = xs` assignment): replaces
an existing column in place, otherwise appends a new column. -/
def DataFrame.setCol (df : DataFrame) (c : String) (xs : List Cell) : DataFrame :=
  if df.names.contains c then
    ⟨df.cols.map (fun p => if p.1 == c then (c, xs) else p)⟩
  else
    ⟨df.cols ++ [(c, xs)]⟩

/-- The underlying-library errors surfaced by the module. -/
inductive PyError where
  | keyError
  | attributeError
  | valueError
  | zeroDivisionError
  deriving DecidableEq, Repr

/-- pandas `df.drop(columns=columns)`: removes the named columns, raising
`KeyError` when a requested label is absent. -/
def pd_drop (df : DataFrame) (columns : List String) : Except PyError DataFrame :=
  if columns.all (fun c => df.names.contains c) then
    .ok ⟨df.cols.filter (fun p => !(columns.contains p.1))⟩
  else
    .error .keyError

/-- pandas `df[columns]` (column projection): the requested columns in the
requested order, raising `KeyError` when a label is absent. -/
def pd_select (df : DataFrame) (columns : List String) : Except PyError DataFrame :=
  if columns.all (fun c => df.names.contains c) then
    .ok ⟨columns.map (fun c => (c, (df.getCol? c).getD []))⟩
  else
    .error .keyError

/-- Observable outcome of `drop_columns`: the caller's frame state after the
call, the returned frame on success (or the raised error), and the `(ncol,
number of requested columns)` pairs logged through `LOG.info`. -/
inductive DropOutcome where
  | ok (dfState ret : DataFrame) (logs : List (Nat × Nat))
  | err (e : PyError) (dfState : DataFrame) (logs : List (Nat × Nat))
  deriving DecidableEq, Repr

/-- Model of `drop_columns(df, columns, inplace)`.

Source (`src/pandas.py` lines 124-131): if the frame has zero columns it is
returned unchanged; otherwise `res = df.drop(columns=columns, inplace=inplace)`
is computed, `nrow, ncol = res.shape` is read, the resulting column count and
the number of requested columns are logged, and `df if inplace else res` is
returned.  With `inplace=True` the pandas `drop` call mutates `df` and returns
`None`, so the subsequent `res.shape` raises `AttributeError` before any log
is emitted: the outcome is `err .attributeError` with the frame already
mutated and no log entry. -/
def drop_columns (df : DataFrame) (columns : List String) (inplace : Bool) :
    DropOutcome :=
  if df.ncol = 0 then
    .ok df df []
  else
    match pd_drop df columns with
    | .error e => .err e df []
    | .ok res =>
      if inplace then
        .err .attributeError res []
      else
        .ok df res [(res.ncol, columns.length)]

/-- Model of `column_cut(frame, columns)` (`src/pandas.py` lines 155-158):
`df1 = frame[columns]`, `df2 = frame.drop(columns=columns)`, returned as a
pair. -/
def column_cut (frame : DataFrame) (columns : List String) :
    Except PyError (DataFrame × DataFrame) := do
  let df1 ← pd_select frame columns
  let df2 ← pd_drop frame columns
  return (df1, df2)

/-- First index of a value in a list of distinct-value candidates, in order of
appearance. -/
def idxOf? (v : Value) : List Value → Option Nat
  | [] => none
  | w :: ws => if w = v then some 0 else (idxOf? v ws).map (· + 1)

/-- Core of `pd.factorize`, processing cells left to right starting from the
already-seen distinct values `u`: returns the integer code of every cell
(missing entries get `-1`) together with the extended distinct-value table in
first-appearance order. -/
def factorizeFrom (u : List Value) : List Cell → List Int × List Value
  | [] => ([], u)
  | none :: xs =>
    let r := factorizeFrom u xs
    (-1 :: r.1, r.2)
  | some v :: xs =>
    match idxOf? v u with
    | some i =>
      let r := factorizeFrom u xs
      ((i : Int) :: r.1, r.2)
    | none =>
      let r := factorizeFrom (u ++ [v]) xs
      ((u.length : Int) :: r.1, r.2)

/-- pandas `pd.factorize(frame[c])`: integer codes in first-appearance order,
`-1` for missing entries, and the `uniques` table, which does not record
missing entries. -/
def factorize (xs : List Cell) : List Int × List Value :=
  factorizeFrom [] xs

/-- The cell column written back by `categorize`: the factorization codes as
integer cells (`frame[c], u = pd.factorize(frame[c])` writes the codes). -/
def codeCol (xs : List Cell) : List Cell :=
  (factorize xs).1.map (fun i => some (Value.vInt i))

/-- Model of `categorize(frame, columns)` (`src/pandas.py` lines 134-141) for
the default `dtype=None` (the optional cast of the code column to a narrower
storage type is not modelled).  Each listed column is read (pandas raises
`KeyError` for an absent label; the model then discards the partially mutated
state), replaced by its factorization codes, and its distinct values are
recorded under its name, in processing order. -/
def categorize (frame : DataFrame) (columns : List String) :
    Except PyError (DataFrame × List (String × List Value)) :=
  match columns with
  | [] => .ok (frame, [])
  | c :: rest =>
    match frame.getCol? c with
    | none => .error .keyError
    | some xs =>
      match categorize (frame.setCol c (codeCol xs)) rest with
      | .error e => .error e
      | .ok q => .ok (q.1, (c, (factorize xs).2) :: q.2)

/-- Decode-table lookup in the mapping returned by `categorize`. -/
def decodeOf (us : List (String × List Value)) (c : String) : Option (List Value) :=
  (us.find? (fun p => p.1 == c)).map Prod.snd

/-- Python `enumerate` starting at `n`. -/
def enumFrom {α : Type} (n : Nat) : List α → List (Nat × α)
  | [] => []
  | x :: xs => (n, x) :: enumFrom (n + 1) xs

/-- `itertools.combinations(l, 2)`: all pairs of elements at positions
`i < j`, in lexicographic position order. -/
def pairsComb {α : Type} : List α → List (α × α)
  | [] => []
  | x :: xs => xs.map (fun y => (x, y)) ++ pairsComb xs

/-- The Python `set(df.columns)` of a frame. -/
def colNameSet (df : DataFrame) : Finset String :=
  df.names.toFinset

/-- Model of `common_columns(dataframes)` (`src/pandas.py` lines 117-121): one
element per pair from `combinations(enumerate(dataframes), 2)`, pairing the
two indices with the set intersection of the two frames' column names.  The
Python generator is modelled as the list of its yields. -/
def common_columns (dataframes : List DataFrame) : List ((Nat × Nat) × Finset String) :=
  (pairsComb (enumFrom 0 dataframes)).map
    (fun q => ((q.1.1, q.2.1), colNameSet q.1.2 ∩ colNameSet q.2.2))

/-- The index pairs the specification expects: every unordered pair of
distinct indices below `n`, exactly once, in pairwise-combination order over
input order. -/
def expectedPairs (n : Nat) : List (Nat × Nat) :=
  pairsComb (List.range n)

/-- Row indices whose cell equals the given value (the pandas boolean-mask
selection `data[data[target] == v]`, as the list of selected row positions; a
missing cell never compares equal to a value). -/
def matchIdx (col : List Cell) (v : Value) : List Nat :=
  (enumFrom 0 col).filterMap (fun p => if p.2 = some v then some p.1 else none)

/-- pandas `Index.sort_values()`: ascending sort. -/
def sortValues (l : List Nat) : List Nat :=
  List.insertionSort (· ≤ ·) l

/-- Keep the first occurrence of each element, dropping later duplicates. -/
def firstUniquesAux {α : Type} [DecidableEq α] (seen : List α) : List α → List α
  | [] => []
  | x :: xs =>
    if x ∈ seen then firstUniquesAux seen xs
    else x :: firstUniquesAux (seen ++ [x]) xs

/-- The distinct elements of a list in first-appearance order (pandas
`Series.unique`; also the set semantics of `Index.union`). -/
def firstUniques {α : Type} [DecidableEq α] (l : List α) : List α :=
  firstUniquesAux [] l

/-- pandas `i1.union(i2).sort_values()`: the distinct labels of both indexes,
in ascending order. -/
def pdIndexUnion (a b : List Nat) : List Nat :=
  sortValues (firstUniques (a ++ b))

/-- pandas `data.loc[index]` over positional row labels: the rows at the given
labels, in label order, all columns kept. -/
def selectRows (df : DataFrame) (idx : List Nat) : DataFrame :=
  ⟨df.cols.map (fun p => (p.1, idx.map (fun i => p.2.getD i none)))⟩

/-- The source's `pos_ratio` local: `float(len(pos_data)) / len(data)`. -/
def posRatio (data : DataFrame) (tcol : List Cell) (posV : Value) : ℚ :=
  ((matchIdx tcol posV).length : ℚ) / (data.nrow : ℚ)

/-- The source's `frac` local: `pos_ratio / (1 - pos_ratio)`. -/
def sampleFrac (data : DataFrame) (tcol : List Cell) (posV : Value) : ℚ :=
  posRatio data tcol posV / (1 - posRatio data tcol posV)

/-- Model of `negative_down_sample(data, target, pos, neg)` (`src/pandas.py`
lines 144-152).  The random draw inside `DataFrame.sample(frac=...)` is an
oracle argument receiving the sampling fraction and the candidate negative-row
indices and returning the chosen row indices; pandas samples without
replacement and raises `ValueError` when asked for `frac > 1` with
`replace=False`.  The scalar division for `pos_ratio` raises
`ZeroDivisionError` on an empty table, and the one for `frac` when the
positive fraction is `1`.  Float ratios are modelled as exact rationals. -/
def negative_down_sample (data : DataFrame) (target : String) (posV negV : Value)
    (sampler : ℚ → List Nat → List Nat) : Except PyError DataFrame :=
  match data.getCol? target with
  | none => .error .keyError
  | some tcol =>
    if data.nrow = 0 then .error .zeroDivisionError
    else if posRatio data tcol posV = 1 then .error .zeroDivisionError
    else if 1 < sampleFrac data tcol posV then .error .valueError
    else
      .ok (selectRows data
        (pdIndexUnion (matchIdx tcol posV)
          (sampler (sampleFrac data tcol posV) (matchIdx tcol negV))))

/-- A ten-row binary outcome column: three positive rows then seven negative
rows (the spec's down-sampling example). -/
def tenRowTarget : List Cell :=
  [some (.vInt 1), some (.vInt 1), some (.vInt 1), some (.vInt 0), some (.vInt 0),
    some (.vInt 0), some (.vInt 0), some (.vInt 0), some (.vInt 0), some (.vInt 0)]

/-- The one-column table over `tenRowTarget`. -/
def tenRowData : DataFrame :=
  ⟨[("TARGET", tenRowTarget)]⟩

/-- A three-row binary outcome column: two positive rows, one negative row. -/
def threeRowTarget : List Cell :=
  [some (.vInt 1), some (.vInt 1), some (.vInt 0)]

/-- The one-column table over `threeRowTarget`. -/
def threeRowData : DataFrame :=
  ⟨[("TARGET", threeRowTarget)]⟩

/-- The float values produced by the summary's ratio columns: exact rationals
plus the special values arising from division by zero in numpy/pandas
semantics (`0/0` is NaN, `x/0` with `x > 0` is `+inf`). -/
inductive PFloat where
  | num : ℚ → PFloat
  | posInf : PFloat
  | nan : PFloat
  deriving DecidableEq, Repr

/-- numpy/pandas division of two counts. -/
def pdivNat (a b : Nat) : PFloat :=
  if b = 0 then (if a = 0 then .nan else .posInf)
  else .num ((a : ℚ) / (b : ℚ))

/-- A pandas dtype name for a column over this value universe: `object` when
any string occurs, `float64` when missing entries force floats, otherwise
`int64`.  Abstracts the library's dtype inference; no claim depends on it. -/
def dtypeOf (xs : List Cell) : String :=
  if xs.any (fun c => match c with | some (.vStr _) => true | _ => false) then "object"
  else if xs.any (fun c => c.isNone) then "float64"
  else "int64"

/-- One row of the `frame_info` summary (the `res` table of `src/pandas.py`
lines 46-56), describing one input column. -/
structure ColInfo where
  colName : String
  dtype : String
  samples : List Cell
  frac_nan : PFloat
  num_nan : Nat
  num_notnan : Nat
  frac_unique : PFloat
  num_unique : Nat
  deriving DecidableEq, Repr

/-- The summary table built by `frame_info` (`src/pandas.py` lines 35-56): one
row per input column holding the column's dtype, a preview of distinct values
drawn from a random row subsample (`frame.sample(max10k)` with
`max10k = min(10000, nrow // 10)`, previewing at most
`min(1000, max10k, n_samples)` distinct values), the missing-entry count and
fraction (`num_nan`, `num_nan / nrow`), the non-missing count, and the
distinct-value count and fraction (`num_unique`, `num_unique / num_notnan`).
`sampleIdx` is the oracle for the random row draw: the drawn row indices, of
which the first `max10k` are used. -/
def frame_info_res (frame : DataFrame) (n_samples : Nat) (sampleIdx : List Nat) :
    List ColInfo :=
  frame.cols.map (fun p =>
    { colName := p.1
      dtype := dtypeOf p.2
      samples := (firstUniques ((sampleIdx.take (min 10000 (frame.nrow / 10))).map
          (fun i => p.2.getD i none))).take
        (min 1000 (min (min 10000 (frame.nrow / 10)) n_samples))
      frac_nan := pdivNat (p.2.countP (fun c => c.isNone)) frame.nrow
      num_nan := p.2.countP (fun c => c.isNone)
      num_notnan := p.2.countP (fun c => c.isSome)
      frac_unique := pdivNat (firstUniques (p.2.filterMap id)).length
        (p.2.countP (fun c => c.isSome))
      num_unique := (firstUniques (p.2.filterMap id)).length })

/-- Result of `frame_info`: the raw summary when `styling=False`, otherwise a
display-styled wrapper around `before_styling(res)` (the `.style...`
decoration chain affects display only, not the summary data). -/
inductive FrameInfoOut where
  | raw : List ColInfo → FrameInfoOut
  | styled : List ColInfo → FrameInfoOut

/-- Model of `frame_info(frame, n_samples, styling, before_styling)`
(`src/pandas.py` lines 27-76), with the row-sampling oracle made explicit.
The `gc.collect()` call and the printed shape line carry no data and are not
modelled. -/
def frame_info (frame : DataFrame) (n_samples : Nat) (styling : Bool)
    (before_styling : List ColInfo → List ColInfo) (sampleIdx : List Nat) :
    FrameInfoOut :=
  if !styling then .raw (frame_info_res frame n_samples sampleIdx)
  else .styled (before_styling (frame_info_res frame n_samples sampleIdx))

/-- Finding a key in an association list returns a member whose key matches. -/
theorem DataFrame.mem_of_getCol? {df : DataFrame} {c : String} {v : List Cell}
    (h : df.getCol? c = some v) : (c, v) ∈ df.cols := by
  unfold DataFrame.getCol? at h
  cases hf : df.cols.find? (fun p => p.1 == c) with
  | none => rw [hf] at h; simp at h
  | some q =>
    rw [hf] at h
    simp only [Option.map_some'] at h
    have hq := List.mem_of_find?_eq_some hf
    have hp := List.find?_some hf
    simp only [beq_iff_eq] at hp
    have : q = (c, v) := by cases q; simp_all
    exact this ▸ hq

/-- A name listed in `df.names` has a column. -/
theorem DataFrame.getCol?_isSome {df : DataFrame} {c : String}
    (h : c ∈ df.names) : ∃ v, df.getCol? c = some v := by
  unfold DataFrame.names at h
  obtain ⟨p, hp, hpc⟩ := List.mem_map.mp h
  have hs : (df.cols.find? (fun p => p.1 == c)).isSome := by
    rw [List.find?_isSome]
    exact ⟨p, hp, by simp [hpc]⟩
  obtain ⟨q, hq⟩ := Option.isSome_iff_exists.mp hs
  exact ⟨q.2, by unfold DataFrame.getCol?; rw [hq]; rfl⟩

/-- With unique column names, membership determines the result of `find?` on
the key predicate. -/
theorem find?_key_unique {l : List (String × List Cell)} {c : String} {v : List Cell}
    (hnd : (l.map Prod.fst).Nodup) (hm : (c, v) ∈ l) :
    l.find? (fun p => p.1 == c) = some (c, v) := by
  induction l with
  | nil => simp at hm
  | cons q l ih =>
    rw [List.map_cons, List.nodup_cons] at hnd
    rcases List.mem_cons.mp hm with h | h
    · rw [← h]
      exact List.find?_cons_of_pos _ (by simp)
    · have hne : q.1 ≠ c := fun he => hnd.1 (he ▸ List.mem_map_of_mem Prod.fst h)
      rw [List.find?_cons_of_neg _ (by simp [hne])]
      exact ih hnd.2 h

/-- With unique column names, membership determines `getCol?`. -/
theorem DataFrame.getCol?_of_mem {df : DataFrame} {c : String} {v : List Cell}
    (hnd : df.names.Nodup) (hm : (c, v) ∈ df.cols) : df.getCol? c = some v := by
  unfold DataFrame.getCol?
  rw [find?_key_unique hnd hm]
  rfl

example :
    drop_columns ⟨[("a", [some (.vInt 1)]), ("b", [some (.vInt 2)])]⟩ ["a"] false =
      .ok ⟨[("a", [some (.vInt 1)]), ("b", [some (.vInt 2)])]⟩ ⟨[("b", [some (.vInt 2)])]⟩
        [(1, 1)] := by
  decide

example :
    drop_columns ⟨[("a", [some (.vInt 1)]), ("b", [some (.vInt 2)])]⟩ ["a"] true =
      .err .attributeError ⟨[("b", [some (.vInt 2)])]⟩ [] := by
  decide

example :
    column_cut ⟨[("a", [some (.vInt 1)]), ("b", [some (.vInt 2)])]⟩ ["b"] =
      .ok (⟨[("b", [some (.vInt 2)])]⟩, ⟨[("a", [some (.vInt 1)])]⟩) := by
  rfl

/-- C1: the spec claims that with the in-place flag set, `drop_columns`
returns the mutated original table and that the log message is emitted in the
in-place case as well.  The code instead crashes there: pandas
`df.drop(..., inplace=True)` mutates `df` and returns `None`, so the following
`res.shape` raises `AttributeError` before the log statement runs.  This
theorem evaluates the model at a failing input: a one-column table dropped in
place yields the `AttributeError` outcome, with the frame already mutated and
no log entry emitted. -/
theorem drop_columns_inplace_raises :
    drop_columns ⟨[("a", [some (.vInt 1)])]⟩ ["a"] true =
      .err .attributeError ⟨[]⟩ [] := by
  decide

/-- C9: on a zero-column table, `drop_columns` returns the table unchanged for
any requested drop list and any in-place flag, without attempting removal and
without raising. -/
theorem drop_columns_zero_columns (df : DataFrame) (columns : List String)
    (inplace : Bool) (h : df.cols = []) :
    drop_columns df columns inplace = .ok df df [] := by
  simp [drop_columns, DataFrame.ncol, h]

/-- Witness for `drop_columns_zero_columns`: a concrete zero-column table with
a non-empty drop list. -/
theorem drop_columns_zero_columns_witness :
    drop_columns ⟨[]⟩ ["a", "b"] true = .ok ⟨[]⟩ ⟨[]⟩ [] :=
  drop_columns_zero_columns ⟨[]⟩ ["a", "b"] true rfl

/-- C3: for a table with distinct column names and a requested list of present
columns, `column_cut` returns a pair of tables: the first holds exactly the
requested columns in the requested order, the second every other column
unchanged, the two share no column names, and together they partition the
input's columns with identical values and row order. -/
theorem column_cut_partition (frame : DataFrame) (columns : List String)
    (hmem : ∀ c ∈ columns, c ∈ frame.names)
    (hnd : frame.names.Nodup) :
    ∃ df1 df2, column_cut frame columns = .ok (df1, df2) ∧
      df1.names = columns ∧
      (∀ p, p ∈ df1.cols → p ∈ frame.cols) ∧
      (∀ p, p ∈ df2.cols ↔ p ∈ frame.cols ∧ p.1 ∉ columns) ∧
      (∀ n ∈ df1.names, n ∉ df2.names) ∧
      (∀ p, p ∈ frame.cols ↔ p ∈ df1.cols ∨ p ∈ df2.cols) := by
  have hall : columns.all (fun c => frame.names.contains c) = true := by
    rw [List.all_eq_true]
    intro c hc
    simpa using hmem c hc
  set d1 : DataFrame := ⟨columns.map (fun c => (c, (frame.getCol? c).getD []))⟩ with hd1
  set d2 : DataFrame := ⟨frame.cols.filter (fun p => !(columns.contains p.1))⟩ with hd2
  have hok : column_cut frame columns = .ok (d1, d2) := by
    rw [hd1, hd2]
    unfold column_cut pd_select pd_drop
    rw [if_pos hall, if_pos hall]
    rfl
  have hnames : d1.names = columns := by
    rw [hd1]
    show (columns.map (fun c => (c, (frame.getCol? c).getD []))).map Prod.fst = columns
    rw [List.map_map]
    have h1 : (Prod.fst ∘ fun c => (c, (frame.getCol? c).getD [])) = id := rfl
    rw [h1, List.map_id]
  have h13 : ∀ p, p ∈ d1.cols → p ∈ frame.cols := by
    intro p hp
    rw [hd1] at hp
    simp only [List.mem_map] at hp
    obtain ⟨c, hc, rfl⟩ := hp
    obtain ⟨v, hv⟩ := DataFrame.getCol?_isSome (hmem c hc)
    rw [hv]
    exact DataFrame.mem_of_getCol? hv
  have h4 : ∀ p, p ∈ d2.cols ↔ p ∈ frame.cols ∧ p.1 ∉ columns := by
    intro p
    rw [hd2]
    simp [List.mem_filter]
  have h5 : ∀ n ∈ d1.names, n ∉ d2.names := by
    intro n hn1 hn2
    rw [hnames] at hn1
    rw [hd2] at hn2
    simp only [DataFrame.names, List.mem_map] at hn2
    obtain ⟨p, hp, rfl⟩ := hn2
    rw [List.mem_filter] at hp
    have : p.1 ∉ columns := by simpa using hp.2
    exact this hn1
  have h6 : ∀ p, p ∈ frame.cols ↔ p ∈ d1.cols ∨ p ∈ d2.cols := by
    intro p
    constructor
    · intro hp
      by_cases hc : p.1 ∈ columns
      · left
        rw [hd1]
        simp only [List.mem_map]
        refine ⟨p.1, hc, ?_⟩
        have hg := DataFrame.getCol?_of_mem hnd (show (p.1, p.2) ∈ frame.cols by simpa using hp)
        rw [hg]
        rfl
      · right
        exact (h4 p).mpr ⟨hp, hc⟩
    · intro h
      rcases h with h | h
      · exact h13 p h
      · exact ((h4 p).mp h).1
  exact ⟨d1, d2, hok, hnames, h13, h4, h5, h6⟩

/-- Witness for `column_cut_partition`: a concrete three-column table cut at
its middle column. -/
theorem column_cut_partition_witness :
    ∃ df1 df2,
      column_cut ⟨[("a", [some (.vInt 1), none]), ("b", [some (.vInt 2), some (.vStr "x")]),
          ("c", [none, none])]⟩ ["b"] = .ok (df1, df2) ∧
      df1.names = ["b"] ∧
      (∀ p, p ∈ df1.cols →
        p ∈ (⟨[("a", [some (.vInt 1), none]), ("b", [some (.vInt 2), some (.vStr "x")]),
          ("c", [none, none])]⟩ : DataFrame).cols) ∧
      (∀ p, p ∈ df2.cols ↔
        p ∈ (⟨[("a", [some (.vInt 1), none]), ("b", [some (.vInt 2), some (.vStr "x")]),
          ("c", [none, none])]⟩ : DataFrame).cols ∧ p.1 ∉ ["b"]) ∧
      (∀ n ∈ df1.names, n ∉ df2.names) ∧
      (∀ p, p ∈ (⟨[("a", [some (.vInt 1), none]), ("b", [some (.vInt 2), some (.vStr "x")]),
          ("c", [none, none])]⟩ : DataFrame).cols ↔ p ∈ df1.cols ∨ p ∈ df2.cols) :=
  column_cut_partition
    ⟨[("a", [some (.vInt 1), none]), ("b", [some (.vInt 2), some (.vStr "x")]),
      ("c", [none, none])]⟩ ["b"] (by decide) (by decide)

/-- The distinct-value table grows only by appending. -/
theorem factorizeFrom_snd_append :
    ∀ (xs : List Cell) (u : List Value), ∃ w, (factorizeFrom u xs).2 = u ++ w := by
  intro xs
  induction xs with
  | nil => intro u; exact ⟨[], by simp [factorizeFrom]⟩
  | cons x xs ih =>
    intro u
    cases x with
    | none =>
      obtain ⟨w, hw⟩ := ih u
      exact ⟨w, by simp [factorizeFrom, hw]⟩
    | some v =>
      cases hi : idxOf? v u with
      | some i =>
        obtain ⟨w, hw⟩ := ih u
        exact ⟨w, by simp [factorizeFrom, hi, hw]⟩
      | none =>
        obtain ⟨w, hw⟩ := ih (u ++ [v])
        exact ⟨v :: w, by simp [factorizeFrom, hi, hw]⟩

/-- Absence characterization for `idxOf?`. -/
theorem idxOf?_eq_none {v : Value} {u : List Value} : idxOf? v u = none ↔ v ∉ u := by
  induction u with
  | nil => simp [idxOf?]
  | cons w ws ih =>
    by_cases h : w = v
    · simp [idxOf?, h]
    · simp only [idxOf?, if_neg h, Option.map_eq_none', ih, List.mem_cons]
      constructor
      · intro hn hvm
        rcases hvm with he | hm
        · exact h he.symm
        · exact hn hm
      · intro hn hm
        exact hn (Or.inr hm)

/-- A first-appearance index is stable under appending further values. -/
theorem idxOf?_append_left {v : Value} {u : List Value} {i : Nat}
    (h : idxOf? v u = some i) (w : List Value) : idxOf? v (u ++ w) = some i := by
  induction u generalizing i with
  | nil => simp [idxOf?] at h
  | cons a as ih =>
    rw [List.cons_append]
    simp only [idxOf?] at h ⊢
    by_cases ha : a = v
    · rwa [if_pos ha] at h ⊢
    · rw [if_neg ha] at h ⊢
      cases hj : idxOf? v as with
      | none => rw [hj] at h; simp at h
      | some j =>
        rw [hj] at h
        rw [ih hj]
        exact h

/-- Decoding the index found by `idxOf?` recovers the value. -/
theorem idxOf?_get? {v : Value} {u : List Value} {i : Nat} (h : idxOf? v u = some i) :
    u.get? i = some v := by
  induction u generalizing i with
  | nil => simp [idxOf?] at h
  | cons a as ih =>
    simp only [idxOf?] at h
    by_cases ha : a = v
    · rw [if_pos ha] at h
      simp only [Option.some.injEq] at h
      rw [← h]
      simp [ha]
    · rw [if_neg ha] at h
      cases hj : idxOf? v as with
      | none => rw [hj] at h; simp at h
      | some j =>
        rw [hj] at h
        simp only [Option.map_some', Option.some.injEq] at h
        rw [← h]
        simpa using ih hj

/-- A fresh value appended after `u` is found exactly at position `u.length`. -/
theorem idxOf?_append_self {v : Value} {u : List Value} (h : v ∉ u) (w : List Value) :
    idxOf? v (u ++ v :: w) = some u.length := by
  induction u with
  | nil => simp [idxOf?]
  | cons a as ih =>
    have ha : a ≠ v := fun he => h (he ▸ List.mem_cons_self a as)
    rw [List.cons_append]
    simp only [idxOf?, if_neg ha]
    rw [ih (fun hm => h (List.mem_cons_of_mem a hm))]
    rfl

/-- Codes have one entry per cell. -/
theorem factorizeFrom_fst_length :
    ∀ (xs : List Cell) (u : List Value), (factorizeFrom u xs).1.length = xs.length := by
  intro xs
  induction xs with
  | nil => intro u; rfl
  | cons x xs ih =>
    intro u
    cases x with
    | none => simp [factorizeFrom, ih]
    | some v =>
      cases hi : idxOf? v u with
      | some i => simp [factorizeFrom, hi, ih]
      | none => simp [factorizeFrom, hi, ih]

/-- Missing cells are coded `-1`. -/
theorem factorizeFrom_get?_none :
    ∀ (xs : List Cell) (u : List Value) (k : Nat),
      xs.get? k = some none → (factorizeFrom u xs).1.get? k = some (-1) := by
  intro xs
  induction xs with
  | nil => intro u k h; simp at h
  | cons x xs ih =>
    intro u k h
    cases k with
    | zero =>
      simp only [List.get?_cons_zero, Option.some.injEq] at h
      rw [h]
      simp [factorizeFrom]
    | succ k =>
      simp only [List.get?_cons_succ] at h
      cases x with
      | none =>
        simpa [factorizeFrom] using ih u k h
      | some v =>
        cases hi : idxOf? v u with
        | some i => simpa [factorizeFrom, hi] using ih u k h
        | none => simpa [factorizeFrom, hi] using ih (u ++ [v]) k h

/-- A non-missing cell is coded by the first-appearance index of its value in
the final distinct-value table. -/
theorem factorizeFrom_get?_some :
    ∀ (xs : List Cell) (u : List Value) (k : Nat) (v : Value),
      xs.get? k = some (some v) →
      ∃ i : Nat, (factorizeFrom u xs).1.get? k = some ((i : Nat) : Int) ∧
        idxOf? v (factorizeFrom u xs).2 = some i := by
  intro xs
  induction xs with
  | nil => intro u k v h; simp at h
  | cons x xs ih =>
    intro u k v h
    cases k with
    | zero =>
      simp only [List.get?_cons_zero, Option.some.injEq] at h
      rw [h]
      cases hi : idxOf? v u with
      | some i =>
        obtain ⟨w, hw⟩ := factorizeFrom_snd_append xs u
        refine ⟨i, by simp [factorizeFrom, hi], ?_⟩
        simp only [factorizeFrom, hi, hw]
        exact idxOf?_append_left hi w
      | none =>
        obtain ⟨w, hw⟩ := factorizeFrom_snd_append xs (u ++ [v])
        have hv : v ∉ u := idxOf?_eq_none.mp hi
        refine ⟨u.length, by simp [factorizeFrom, hi], ?_⟩
        simp only [factorizeFrom, hi, hw]
        have hres := idxOf?_append_self hv w
        rw [List.append_assoc, List.singleton_append] at hw ⊢
        exact hres
    | succ k =>
      simp only [List.get?_cons_succ] at h
      cases x with
      | none =>
        obtain ⟨i, h1, h2⟩ := ih u k v h
        exact ⟨i, by simpa [factorizeFrom] using h1, by simpa [factorizeFrom] using h2⟩
      | some v2 =>
        cases hi : idxOf? v2 u with
        | some j =>
          obtain ⟨i, h1, h2⟩ := ih u k v h
          exact ⟨i, by simpa [factorizeFrom, hi] using h1, by simpa [factorizeFrom, hi] using h2⟩
        | none =>
          obtain ⟨i, h1, h2⟩ := ih (u ++ [v2]) k v h
          exact ⟨i, by simpa [factorizeFrom, hi] using h1, by simpa [factorizeFrom, hi] using h2⟩

/-- Replacing the keyed entry is what `find?` then returns. -/
theorem find?_map_set {c : String} {ys : List Cell} :
    ∀ {l : List (String × List Cell)}, c ∈ l.map Prod.fst →
      (l.map (fun p => if p.1 == c then (c, ys) else p)).find? (fun p => p.1 == c) =
        some (c, ys) := by
  intro l
  induction l with
  | nil => intro h; simp at h
  | cons q l ih =>
    intro h
    simp only [List.map_cons] at h ⊢
    by_cases hq : q.1 = c
    · rw [if_pos (by simp [hq])]
      exact List.find?_cons_of_pos _ (by simp)
    · rw [if_neg (by simp [hq])]
      rw [List.find?_cons_of_neg _ (by simp [hq])]
      rcases List.mem_cons.mp h with he | hm
      · exact absurd he.symm hq
      · exact ih hm

/-- Rewriting entries of a different key does not change a keyed search. -/
theorem find?_map_set_ne {b c : String} (hne : b ≠ c) {ys : List Cell} :
    ∀ (l : List (String × List Cell)),
      (l.map (fun p => if p.1 == b then (b, ys) else p)).find? (fun p => p.1 == c) =
        l.find? (fun p => p.1 == c) := by
  intro l
  induction l with
  | nil => rfl
  | cons q l ih =>
    simp only [List.map_cons]
    by_cases hq : q.1 = b
    · rw [if_pos (by simp [hq])]
      rw [List.find?_cons_of_neg _ (by simp [hne]), List.find?_cons_of_neg _ (by simp [hq, hne])]
      exact ih
    · rw [if_neg (by simp [hq])]
      by_cases hc : q.1 = c
      · rw [List.find?_cons_of_pos _ (by simp [hc]), List.find?_cons_of_pos _ (by simp [hc])]
      · rw [List.find?_cons_of_neg _ (by simp [hc]), List.find?_cons_of_neg _ (by simp [hc])]
        exact ih

/-- Reading back the column just written. -/
theorem DataFrame.getCol?_setCol_self (df : DataFrame) (c : String) (ys : List Cell) :
    (df.setCol c ys).getCol? c = some ys := by
  unfold DataFrame.setCol
  by_cases h : df.names.contains c
  · rw [if_pos h]
    have hc : c ∈ df.cols.map Prod.fst := by
      simpa [DataFrame.names] using h
    simp only [DataFrame.getCol?]
    rw [find?_map_set hc]
    rfl
  · rw [if_neg h]
    have hc : df.cols.find? (fun p => p.1 == c) = none := by
      rw [List.find?_eq_none]
      intro p hp hpc
      apply h
      have hpc' : p.1 = c := by simpa using hpc
      exact List.elem_eq_true_of_mem (hpc' ▸ List.mem_map_of_mem Prod.fst hp)
    simp only [DataFrame.getCol?]
    rw [List.find?_append, hc]
    simp

/-- Writing one column leaves reads of any other column unchanged. -/
theorem DataFrame.getCol?_setCol_ne (df : DataFrame) {b c : String} (ys : List Cell)
    (hne : b ≠ c) : (df.setCol b ys).getCol? c = df.getCol? c := by
  unfold DataFrame.setCol
  by_cases h : df.names.contains b
  · rw [if_pos h]
    simp only [DataFrame.getCol?]
    rw [find?_map_set_ne hne df.cols]
  · rw [if_neg h]
    simp only [DataFrame.getCol?]
    rw [List.find?_append]
    cases hf : df.cols.find? (fun p => p.1 == c) with
    | some q => rfl
    | none => simp [hne]

/-- Columns not listed are untouched by `categorize`. -/
theorem categorize_getCol?_of_not_mem :
    ∀ (columns : List String) (frame frame2 : DataFrame) (us : List (String × List Value)),
      categorize frame columns = .ok (frame2, us) → ∀ c, c ∉ columns →
        frame2.getCol? c = frame.getCol? c := by
  intro columns
  induction columns with
  | nil =>
    intro frame frame2 us h c _
    simp only [categorize, Except.ok.injEq, Prod.mk.injEq] at h
    rw [← h.1]
  | cons b rest ih =>
    intro frame frame2 us h c hc
    cases hg : frame.getCol? b with
    | none =>
      simp only [categorize, hg] at h
      exact absurd h (by simp)
    | some xs =>
      simp only [categorize, hg] at h
      cases hr : categorize (frame.setCol b (codeCol xs)) rest with
      | error e =>
        simp only [hr] at h
        exact absurd h (by simp)
      | ok q =>
        simp only [hr, Except.ok.injEq, Prod.mk.injEq] at h
        have hb : b ≠ c := fun he => hc (he ▸ List.mem_cons_self b rest)
        have h2 := ih _ q.1 q.2 hr c (fun hm => hc (List.mem_cons_of_mem b hm))
        rw [← h.1, h2, DataFrame.getCol?_setCol_ne _ _ hb]

/-- Success and per-column description of `categorize` on distinct listed
columns that are all present. -/
theorem categorize_ok_spec :
    ∀ (columns : List String) (frame : DataFrame),
      columns.Nodup → (∀ c ∈ columns, (frame.getCol? c).isSome = true) →
      ∃ frame2 us, categorize frame columns = .ok (frame2, us) ∧
        ∀ c ∈ columns, ∃ xs, frame.getCol? c = some xs ∧
          decodeOf us c = some (factorize xs).2 ∧
          frame2.getCol? c = some (codeCol xs) := by
  intro columns
  induction columns with
  | nil =>
    intro frame _ _
    exact ⟨frame, [], rfl, by simp⟩
  | cons b rest ih =>
    intro frame hnd hp
    obtain ⟨xs, hxs⟩ := Option.isSome_iff_exists.mp (hp b (List.mem_cons_self b rest))
    have hnd' := List.nodup_cons.mp hnd
    have hp' : ∀ c ∈ rest, ((frame.setCol b (codeCol xs)).getCol? c).isSome = true := by
      intro c hc
      have hb : b ≠ c := fun he => hnd'.1 (he ▸ hc)
      rw [DataFrame.getCol?_setCol_ne _ _ hb]
      exact hp c (List.mem_cons_of_mem b hc)
    obtain ⟨frame2, us, hok, hall⟩ := ih (frame.setCol b (codeCol xs)) hnd'.2 hp'
    refine ⟨frame2, (b, (factorize xs).2) :: us, ?_, ?_⟩
    · simp only [categorize, hxs, hok]
    · intro c hc
      rcases List.mem_cons.mp hc with rfl | hc'
      · refine ⟨xs, hxs, ?_, ?_⟩
        · simp [decodeOf]
        · have hpres := categorize_getCol?_of_not_mem rest _ frame2 us hok c hnd'.1
          rw [hpres, DataFrame.getCol?_setCol_self]
      · obtain ⟨ys, hys, hdec, hcol⟩ := hall c hc'
        have hb : b ≠ c := fun he => hnd'.1 (he ▸ hc')
        refine ⟨ys, ?_, ?_, hcol⟩
        · rw [← DataFrame.getCol?_setCol_ne frame (codeCol xs) hb]
          exact hys
        · rw [decodeOf, List.find?_cons_of_neg _ (by simp [hb])]
          exact hdec

/-- The written-back code column, position-wise: missing cells. -/
theorem codeCol_get?_none {xs : List Cell} {k : Nat} (h : xs.get? k = some none) :
    (codeCol xs).get? k = some (some (.vInt (-1))) := by
  unfold codeCol
  rw [List.get?_map, show (factorize xs).1.get? k = some (-1) from
    factorizeFrom_get?_none xs [] k h]
  rfl

/-- The written-back code column, position-wise: present cells. -/
theorem codeCol_get?_some {xs : List Cell} {k : Nat} {v : Value}
    (h : xs.get? k = some (some v)) :
    ∃ i : Nat, (codeCol xs).get? k = some (some (.vInt ((i : Nat) : Int))) ∧
      idxOf? v (factorize xs).2 = some i := by
  obtain ⟨i, h1, h2⟩ := factorizeFrom_get?_some xs [] k v h
  refine ⟨i, ?_, h2⟩
  unfold codeCol
  rw [List.get?_map, show (factorize xs).1.get? k = some ((i : Nat) : Int) from h1]
  rfl

/-- The code column has one entry per original cell. -/
theorem codeCol_length (xs : List Cell) : (codeCol xs).length = xs.length := by
  unfold codeCol
  rw [List.length_map]
  exact factorizeFrom_fst_length xs []

/-- Every recorded distinct value occurs in the processed cells. -/
theorem factorizeFrom_snd_mem :
    ∀ (xs : List Cell) (u : List Value) (v : Value),
      v ∈ (factorizeFrom u xs).2 → v ∈ u ∨ some v ∈ xs := by
  intro xs
  induction xs with
  | nil => intro u v h; exact Or.inl (by simpa [factorizeFrom] using h)
  | cons x xs ih =>
    intro u v h
    cases x with
    | none =>
      rcases ih u v (by simpa [factorizeFrom] using h) with h1 | h2
      · exact Or.inl h1
      · exact Or.inr (List.mem_cons_of_mem _ h2)
    | some w =>
      cases hi : idxOf? w u with
      | some i =>
        rcases ih u v (by simpa [factorizeFrom, hi] using h) with h1 | h2
        · exact Or.inl h1
        · exact Or.inr (List.mem_cons_of_mem _ h2)
      | none =>
        rcases ih (u ++ [w]) v (by simpa [factorizeFrom, hi] using h) with h1 | h2
        · rcases List.mem_append.mp h1 with ha | hb
          · exact Or.inl ha
          · have hvw : v = w := by simpa using hb
            exact Or.inr (hvw ▸ List.mem_cons_self _ _)
        · exact Or.inr (List.mem_cons_of_mem _ h2)

/-- C2 (counterexample to the claim as stated): on a column holding one value
and one missing entry, `categorize` writes the codes `0` and `-1` and returns
the one-element decode sequence `["x"]`; the code `-1` is present in the
mutated column but corresponds to no position of the decode sequence, so the
round-trip law quantified over every code present fails. -/
theorem categorize_roundtrip_counterexample :
    categorize ⟨[("a", [some (.vStr "x"), none])]⟩ ["a"] =
      .ok (⟨[("a", [some (.vInt 0), some (.vInt (-1))])]⟩, [("a", [.vStr "x"])]) ∧
    ¬ (∀ code : Int,
        some (Value.vInt code) ∈ [some (Value.vInt 0), some (Value.vInt (-1))] →
        ∃ i : Nat, (i : Int) = code ∧
          ∃ v, [Value.vStr "x"].get? i = some v ∧ idxOf? v [Value.vStr "x"] = some i) := by
  refine ⟨rfl, ?_⟩
  intro h
  obtain ⟨i, hi, -⟩ := h (-1) (by simp)
  omega

/-- C2 (amended): after `categorize`, every cell of a processed column is an
integer code, and every non-negative code `i` present decodes through position
`i` of that column's returned decode sequence and re-encodes (first-appearance
index) to `i` again.  The claim's law, stated for every code present, fails
only for the code `-1` given to missing entries (see
`categorize_roundtrip_counterexample`), so it is restricted here to
non-negative codes. -/
theorem categorize_roundtrip_nonneg (frame : DataFrame) (columns : List String)
    (hnd : columns.Nodup) (hp : ∀ c ∈ columns, (frame.getCol? c).isSome = true) :
    ∃ frame2 us, categorize frame columns = .ok (frame2, us) ∧
      ∀ c ∈ columns, ∃ u col, decodeOf us c = some u ∧ frame2.getCol? c = some col ∧
        ∀ cell ∈ col, ∃ code : Int, cell = some (.vInt code) ∧
          (0 ≤ code →
            ∃ v, u.get? code.toNat = some v ∧ idxOf? v u = some code.toNat) := by
  obtain ⟨frame2, us, hok, hall⟩ := categorize_ok_spec columns frame hnd hp
  refine ⟨frame2, us, hok, ?_⟩
  intro c hc
  obtain ⟨xs, hxs, hdec, hcol⟩ := hall c hc
  refine ⟨(factorize xs).2, codeCol xs, hdec, hcol, ?_⟩
  intro cell hcell
  simp only [codeCol, List.mem_map] at hcell
  obtain ⟨code, hcode, rfl⟩ := hcell
  refine ⟨code, rfl, ?_⟩
  intro hge
  obtain ⟨k, hk⟩ := List.get?_of_mem hcode
  have hklen : k < xs.length := by
    have hlen := factorizeFrom_fst_length xs []
    by_contra hkk
    have hnone : (factorize xs).1.get? k = none := by
      rw [List.get?_eq_none]
      show (factorizeFrom [] xs).1.length ≤ k
      omega
    rw [hnone] at hk
    exact Option.noConfusion hk
  cases hx : xs.get? k with
  | none =>
    rw [List.get?_eq_none] at hx
    omega
  | some cell0 =>
    cases cell0 with
    | none =>
      have hcontr : some code = some (-1 : Int) := by
        rw [← hk]
        exact factorizeFrom_get?_none xs [] k hx
      have : code = -1 := Option.some.inj hcontr
      omega
    | some v =>
      obtain ⟨i, h1, h2⟩ := factorizeFrom_get?_some xs [] k v hx
      rw [show (factorize xs).1.get? k = some ((i : Nat) : Int) from h1] at hk
      have hic : ((i : Nat) : Int) = code := Option.some.inj hk
      have hti : code.toNat = i := by omega
      refine ⟨v, ?_, ?_⟩
      · rw [hti]
        exact idxOf?_get? h2
      · rw [hti]
        exact h2

/-- Witness for `categorize_roundtrip_nonneg`: a column with repeated and
unique values. -/
theorem categorize_roundtrip_nonneg_witness :
    ∃ frame2 us,
      categorize ⟨[("a", [some (.vStr "x"), some (.vStr "y"), some (.vStr "x")])]⟩ ["a"] =
        .ok (frame2, us) ∧
      ∀ c ∈ ["a"], ∃ u col, decodeOf us c = some u ∧ frame2.getCol? c = some col ∧
        ∀ cell ∈ col, ∃ code : Int, cell = some (.vInt code) ∧
          (0 ≤ code →
            ∃ v, u.get? code.toNat = some v ∧ idxOf? v u = some code.toNat) :=
  categorize_roundtrip_nonneg ⟨[("a", [some (.vStr "x"), some (.vStr "y"), some (.vStr "x")])]⟩
    ["a"] (by decide) (by decide)

/-- C10: for every processed column, missing entries receive the code `-1`
(and a `-1` cell arises only from a missing entry); the decode table records
only values of non-missing entries, so `-1` indexes no element of it (decode
positions are naturals); the decode/re-encode round trip holds for every
non-negative code present. -/
theorem categorize_missing_minus_one (frame : DataFrame) (columns : List String)
    (hnd : columns.Nodup) (hp : ∀ c ∈ columns, (frame.getCol? c).isSome = true) :
    ∃ frame2 us, categorize frame columns = .ok (frame2, us) ∧
      ∀ c ∈ columns, ∃ xs u col, frame.getCol? c = some xs ∧ decodeOf us c = some u ∧
        frame2.getCol? c = some col ∧
        (∀ k, xs.get? k = some none ↔ col.get? k = some (some (.vInt (-1)))) ∧
        (∀ v ∈ u, some v ∈ xs) ∧
        (∀ k code, col.get? k = some (some (.vInt code)) → 0 ≤ code →
          ∃ v, u.get? code.toNat = some v ∧ idxOf? v u = some code.toNat) := by
  obtain ⟨frame2, us, hok, hall⟩ := categorize_ok_spec columns frame hnd hp
  refine ⟨frame2, us, hok, ?_⟩
  intro c hc
  obtain ⟨xs, hxs, hdec, hcol⟩ := hall c hc
  refine ⟨xs, (factorize xs).2, codeCol xs, hxs, hdec, hcol, ?_, ?_, ?_⟩
  · intro k
    constructor
    · exact codeCol_get?_none
    · intro hcode
      have hklen : k < xs.length := by
        by_contra hkk
        have hnone : (codeCol xs).get? k = none := by
          rw [List.get?_eq_none, codeCol_length]
          omega
        rw [hnone] at hcode
        exact Option.noConfusion hcode
      cases hx : xs.get? k with
      | none =>
        rw [List.get?_eq_none] at hx
        omega
      | some cell0 =>
        cases cell0 with
        | none => rfl
        | some v =>
          obtain ⟨i, h1, -⟩ := codeCol_get?_some hx
          rw [h1] at hcode
          have : ((i : Nat) : Int) = -1 := by
            have h3 := Option.some.inj hcode
            have h4 := Option.some.inj h3
            exact Value.vInt.inj h4
          omega
  · intro v hv
    rcases factorizeFrom_snd_mem xs [] v hv with h1 | h2
    · exact absurd h1 (List.not_mem_nil v)
    · exact h2
  · intro k code hcode hge
    have hklen : k < xs.length := by
      by_contra hkk
      have hnone : (codeCol xs).get? k = none := by
        rw [List.get?_eq_none, codeCol_length]
        omega
      rw [hnone] at hcode
      exact Option.noConfusion hcode
    cases hx : xs.get? k with
    | none =>
      rw [List.get?_eq_none] at hx
      omega
    | some cell0 =>
      cases cell0 with
      | none =>
        rw [codeCol_get?_none hx] at hcode
        have : code = -1 := by
          have h3 := Option.some.inj hcode
          have h4 := Option.some.inj h3
          exact (Value.vInt.inj h4).symm
        omega
      | some v =>
        obtain ⟨i, h1, h2⟩ := codeCol_get?_some hx
        rw [h1] at hcode
        have hic : ((i : Nat) : Int) = code := by
          have h3 := Option.some.inj hcode
          have h4 := Option.some.inj h3
          exact Value.vInt.inj h4
        have hti : code.toNat = i := by omega
        refine ⟨v, ?_, ?_⟩
        · rw [hti]
          exact idxOf?_get? h2
        · rw [hti]
          exact h2

/-- Witness for `categorize_missing_minus_one`: a column with a missing entry
between two occurrences of the same value. -/
theorem categorize_missing_minus_one_witness :
    ∃ frame2 us,
      categorize ⟨[("a", [some (.vStr "x"), none, some (.vStr "x")])]⟩ ["a"] =
        .ok (frame2, us) ∧
      ∀ c ∈ ["a"], ∃ xs u col,
        (⟨[("a", [some (.vStr "x"), none, some (.vStr "x")])]⟩ : DataFrame).getCol? c =
          some xs ∧ decodeOf us c = some u ∧
        frame2.getCol? c = some col ∧
        (∀ k, xs.get? k = some none ↔ col.get? k = some (some (.vInt (-1)))) ∧
        (∀ v ∈ u, some v ∈ xs) ∧
        (∀ k code, col.get? k = some (some (.vInt code)) → 0 ≤ code →
          ∃ v, u.get? code.toNat = some v ∧ idxOf? v u = some code.toNat) :=
  categorize_missing_minus_one ⟨[("a", [some (.vStr "x"), none, some (.vStr "x")])]⟩
    ["a"] (by decide) (by decide)

/-- Pairwise combination commutes with mapping. -/
theorem pairsComb_map {α β : Type} (f : α → β) :
    ∀ l : List α, pairsComb (l.map f) = (pairsComb l).map (fun p => (f p.1, f p.2)) := by
  intro l
  induction l with
  | nil => rfl
  | cons x xs ih =>
    simp only [List.map_cons, pairsComb, ih, List.map_append, List.map_map]
    rfl

/-- The indices produced by `enumerate` starting at `n`. -/
theorem enumFrom_map_fst {α : Type} :
    ∀ (l : List α) (n : Nat), (enumFrom n l).map Prod.fst = List.range' n l.length := by
  intro l
  induction l with
  | nil => intro n; rfl
  | cons x xs ih =>
    intro n
    simp only [enumFrom, List.map_cons, List.length_cons, ih, List.range'_succ]

/-- Pairwise combination of `n` items yields `n` choose `2` pairs. -/
theorem pairsComb_length {α : Type} :
    ∀ l : List α, (pairsComb l).length = Nat.choose l.length 2 := by
  intro l
  induction l with
  | nil => rfl
  | cons x xs ih =>
    simp only [pairsComb, List.length_append, List.length_map, ih, List.length_cons,
      Nat.choose_succ_succ, Nat.choose_one_right]

/-- Membership in pairwise combinations of a contiguous index range. -/
theorem pairsComb_range'_mem :
    ∀ (len s : Nat) (p : Nat × Nat),
      p ∈ pairsComb (List.range' s len) ↔ s ≤ p.1 ∧ p.1 < p.2 ∧ p.2 < s + len := by
  intro len
  induction len with
  | zero =>
    intro s p
    simp only [List.range', pairsComb, List.not_mem_nil, false_iff]
    omega
  | succ len ih =>
    intro s p
    rw [List.range'_succ s len 1]
    simp only [pairsComb, List.mem_append, List.mem_map]
    constructor
    · intro h
      rcases h with ⟨y, hy, rfl⟩ | h
      · rw [List.mem_range'_1] at hy
        simp only []
        omega
      · have := (ih (s + 1) p).mp h
        omega
    · intro h
      by_cases hp : p.1 = s
      · left
        refine ⟨p.2, ?_, ?_⟩
        · rw [List.mem_range'_1]
          omega
        · rw [← hp]
      · right
        exact (ih (s + 1) p).mpr (by omega)

/-- Pairwise combinations of a contiguous index range contain no duplicates. -/
theorem pairsComb_range'_nodup :
    ∀ (len s : Nat), (pairsComb (List.range' s len)).Nodup := by
  intro len
  induction len with
  | zero => intro s; simp [List.range', pairsComb]
  | succ len ih =>
    intro s
    rw [List.range'_succ s len 1]
    simp only [pairsComb]
    apply List.Nodup.append
    · exact List.Nodup.map (fun a b hab => by simpa using hab) (List.nodup_range' (s + 1) len)
    · exact ih (s + 1)
    · intro q hq1 hq2
      obtain ⟨y, hy, rfl⟩ := List.mem_map.mp hq1
      have := (pairsComb_range'_mem len (s + 1) (s, y)).mp hq2
      omega

/-- Both components of a produced pair are members of the input. -/
theorem pairsComb_mem {α : Type} :
    ∀ (l : List α) (q : α × α), q ∈ pairsComb l → q.1 ∈ l ∧ q.2 ∈ l := by
  intro l
  induction l with
  | nil => intro q h; simp [pairsComb] at h
  | cons x xs ih =>
    intro q h
    simp only [pairsComb, List.mem_append, List.mem_map] at h
    rcases h with ⟨y, hy, rfl⟩ | h
    · exact ⟨List.mem_cons_self x xs, List.mem_cons_of_mem x hy⟩
    · obtain ⟨h1, h2⟩ := ih q h
      exact ⟨List.mem_cons_of_mem x h1, List.mem_cons_of_mem x h2⟩

/-- An `enumerate` member carries the element at its index. -/
theorem enumFrom_mem {α : Type} :
    ∀ (l : List α) (n : Nat) (q : Nat × α),
      q ∈ enumFrom n l → n ≤ q.1 ∧ l.get? (q.1 - n) = some q.2 := by
  intro l
  induction l with
  | nil => intro n q h; simp [enumFrom] at h
  | cons x xs ih =>
    intro n q h
    simp only [enumFrom, List.mem_cons] at h
    rcases h with rfl | h
    · simp
    · obtain ⟨h1, h2⟩ := ih (n + 1) q h
      refine ⟨by omega, ?_⟩
      have hs : q.1 - n = (q.1 - (n + 1)) + 1 := by omega
      rw [hs, List.get?_cons_succ]
      exact h2

/-- `enumerate` preserves length. -/
theorem enumFrom_length {α : Type} :
    ∀ (l : List α) (n : Nat), (enumFrom n l).length = l.length := by
  intro l
  induction l with
  | nil => intro n; rfl
  | cons x xs ih => intro n; simp [enumFrom, ih]

/-- C5: `common_columns` yields exactly one element per unordered pair of
distinct input indices, in pairwise-combination order over input order
(`n` choose `2` elements); each element pairs the two indices with the
intersection of the two frames' column-name sets, which equals the full column
set when the two frames have identical column sets and is empty when they are
disjoint. -/
theorem common_columns_pairs (dataframes : List DataFrame) :
    (common_columns dataframes).map Prod.fst = expectedPairs dataframes.length ∧
    (common_columns dataframes).length = Nat.choose dataframes.length 2 ∧
    (∀ p : Nat × Nat,
      p ∈ expectedPairs dataframes.length ↔ p.1 < p.2 ∧ p.2 < dataframes.length) ∧
    (expectedPairs dataframes.length).Nodup ∧
    (∀ q ∈ common_columns dataframes, ∃ d1 d2,
      dataframes.get? q.1.1 = some d1 ∧ dataframes.get? q.1.2 = some d2 ∧
      q.2 = colNameSet d1 ∩ colNameSet d2 ∧
      (colNameSet d1 = colNameSet d2 → q.2 = colNameSet d1) ∧
      (Disjoint (colNameSet d1) (colNameSet d2) → q.2 = ∅)) := by
  refine ⟨?_, ?_, ?_, ?_, ?_⟩
  · unfold common_columns expectedPairs
    rw [List.map_map]
    have h1 : (Prod.fst ∘ fun q : (Nat × DataFrame) × Nat × DataFrame =>
        ((q.1.1, q.2.1), colNameSet q.1.2 ∩ colNameSet q.2.2)) =
        (fun p : (Nat × DataFrame) × Nat × DataFrame => (Prod.fst p.1, Prod.fst p.2)) := rfl
    rw [h1, ← pairsComb_map Prod.fst, enumFrom_map_fst, ← List.range_eq_range']
  · unfold common_columns
    rw [List.length_map, pairsComb_length, enumFrom_length]
  · intro p
    unfold expectedPairs
    rw [List.range_eq_range', pairsComb_range'_mem]
    omega
  · unfold expectedPairs
    rw [List.range_eq_range']
    exact pairsComb_range'_nodup dataframes.length 0
  · intro q hq
    unfold common_columns at hq
    obtain ⟨r, hr, rfl⟩ := List.mem_map.mp hq
    obtain ⟨hr1, hr2⟩ := pairsComb_mem _ r hr
    obtain ⟨-, hg1⟩ := enumFrom_mem dataframes 0 r.1 hr1
    obtain ⟨-, hg2⟩ := enumFrom_mem dataframes 0 r.2 hr2
    rw [Nat.sub_zero] at hg1 hg2
    refine ⟨r.1.2, r.2.2, hg1, hg2, rfl, ?_, ?_⟩
    · intro he
      show colNameSet r.1.2 ∩ colNameSet r.2.2 = colNameSet r.1.2
      rw [he, Finset.inter_self]
    · intro hd
      show colNameSet r.1.2 ∩ colNameSet r.2.2 = ∅
      exact Finset.disjoint_iff_inter_eq_empty.mp hd

/-- Witness for `common_columns_pairs`: three tables, two with identical
columns, taken at the produced element for the index pair `(0, 1)`. -/
theorem common_columns_pairs_witness :
    ∃ d1 d2,
      ([⟨[("a", []), ("b", [])]⟩, ⟨[("a", []), ("b", [])]⟩, ⟨[("c", [])]⟩] :
          List DataFrame).get? 0 = some d1 ∧
      ([⟨[("a", []), ("b", [])]⟩, ⟨[("a", []), ("b", [])]⟩, ⟨[("c", [])]⟩] :
          List DataFrame).get? 1 = some d2 ∧
      colNameSet (⟨[("a", []), ("b", [])]⟩ : DataFrame) ∩
          colNameSet (⟨[("a", []), ("b", [])]⟩ : DataFrame) =
        colNameSet d1 ∩ colNameSet d2 ∧
      (colNameSet d1 = colNameSet d2 →
        colNameSet (⟨[("a", []), ("b", [])]⟩ : DataFrame) ∩
            colNameSet (⟨[("a", []), ("b", [])]⟩ : DataFrame) = colNameSet d1) ∧
      (Disjoint (colNameSet d1) (colNameSet d2) →
        colNameSet (⟨[("a", []), ("b", [])]⟩ : DataFrame) ∩
            colNameSet (⟨[("a", []), ("b", [])]⟩ : DataFrame) = ∅) :=
  (common_columns_pairs
      [⟨[("a", []), ("b", [])]⟩, ⟨[("a", []), ("b", [])]⟩, ⟨[("c", [])]⟩]).2.2.2.2
    ((0, 1), colNameSet (⟨[("a", []), ("b", [])]⟩ : DataFrame) ∩
      colNameSet (⟨[("a", []), ("b", [])]⟩ : DataFrame)) (by decide)

/-- Membership in the first-occurrence filter, relative to already-seen
elements. -/
theorem firstUniquesAux_mem {α : Type} [DecidableEq α] :
    ∀ (l : List α) (seen : List α) (a : α),
      a ∈ firstUniquesAux seen l ↔ a ∈ l ∧ a ∉ seen := by
  intro l
  induction l with
  | nil => intro seen a; simp [firstUniquesAux]
  | cons x xs ih =>
    intro seen a
    by_cases hx : x ∈ seen
    · simp only [firstUniquesAux, if_pos hx, ih, List.mem_cons]
      constructor
      · rintro ⟨h1, h2⟩
        exact ⟨Or.inr h1, h2⟩
      · rintro ⟨h1 | h1, h2⟩
        · subst h1; exact absurd hx h2
        · exact ⟨h1, h2⟩
    · simp only [firstUniquesAux, if_neg hx, List.mem_cons, ih, List.mem_append,
        List.mem_singleton]
      constructor
      · rintro (rfl | ⟨h1, h2⟩)
        · exact ⟨Or.inl rfl, hx⟩
        · exact ⟨Or.inr h1, fun hs => h2 (Or.inl hs)⟩
      · rintro ⟨h1 | h1, h2⟩
        · exact Or.inl h1
        · by_cases hax : a = x
          · exact Or.inl hax
          · refine Or.inr ⟨h1, fun hs => ?_⟩
            rcases hs with hs | hs | hs
            · exact h2 hs
            · exact hax hs
            · exact absurd hs (List.not_mem_nil a)

/-- The first-occurrence filter yields no duplicates. -/
theorem firstUniquesAux_nodup {α : Type} [DecidableEq α] :
    ∀ (l : List α) (seen : List α), (firstUniquesAux seen l).Nodup := by
  intro l
  induction l with
  | nil => intro seen; simp [firstUniquesAux]
  | cons x xs ih =>
    intro seen
    by_cases hx : x ∈ seen
    · simp only [firstUniquesAux, if_pos hx]
      exact ih _
    · simp only [firstUniquesAux, if_neg hx]
      rw [List.nodup_cons]
      refine ⟨?_, ih _⟩
      intro hmem
      rw [firstUniquesAux_mem] at hmem
      exact hmem.2 (List.mem_append.mpr (Or.inr (List.mem_singleton.mpr rfl)))

/-- Distinct-element extraction preserves membership. -/
theorem firstUniques_mem {α : Type} [DecidableEq α] (l : List α) (a : α) :
    a ∈ firstUniques l ↔ a ∈ l := by
  unfold firstUniques
  rw [firstUniquesAux_mem]
  simp

/-- Distinct-element extraction yields no duplicates. -/
theorem firstUniques_nodup {α : Type} [DecidableEq α] (l : List α) :
    (firstUniques l).Nodup :=
  firstUniquesAux_nodup l []

/-- Label membership of the sorted index union. -/
theorem pdIndexUnion_mem (a b : List Nat) (i : Nat) :
    i ∈ pdIndexUnion a b ↔ i ∈ a ∨ i ∈ b := by
  unfold pdIndexUnion sortValues
  rw [(List.perm_insertionSort _ _).mem_iff, firstUniques_mem, List.mem_append]

/-- The sorted index union holds no duplicates. -/
theorem pdIndexUnion_nodup (a b : List Nat) : (pdIndexUnion a b).Nodup := by
  unfold pdIndexUnion sortValues
  exact (List.perm_insertionSort _ _).nodup_iff.mpr (firstUniques_nodup _)

/-- The sorted index union is ascending. -/
theorem pdIndexUnion_sorted (a b : List Nat) : (pdIndexUnion a b).Sorted (· ≤ ·) := by
  unfold pdIndexUnion sortValues
  exact List.sorted_insertionSort _ _

/-- C6: when the positive fraction `p` satisfies `p/(1-p) <= 1` (and the
ratios are defined), `negative_down_sample` succeeds; the negative rows are
sampled (without replacement, per the sampler hypotheses) at the fraction
exactly `p/(1-p)`; the result selects exactly the union of the positive-row
indices and the sampled negative-row indices, deduplicated and sorted
ascending by original row index — in particular all positive rows are
retained and every selected row is a positive or a negative row. -/
theorem negative_down_sample_spec (data : DataFrame) (target : String)
    (posV negV : Value) (sampler : ℚ → List Nat → List Nat) (tcol : List Cell)
    (hcol : data.getCol? target = some tcol)
    (hrow : data.nrow ≠ 0)
    (hp1 : posRatio data tcol posV ≠ 1)
    (hfrac : sampleFrac data tcol posV ≤ 1)
    (hnodup : (sampler (sampleFrac data tcol posV) (matchIdx tcol negV)).Nodup)
    (hsub : ∀ i ∈ sampler (sampleFrac data tcol posV) (matchIdx tcol negV),
      i ∈ matchIdx tcol negV) :
    ∃ idx,
      negative_down_sample data target posV negV sampler = .ok (selectRows data idx) ∧
      idx = pdIndexUnion (matchIdx tcol posV)
        (sampler (sampleFrac data tcol posV) (matchIdx tcol negV)) ∧
      (∀ i ∈ matchIdx tcol posV, i ∈ idx) ∧
      idx.Nodup ∧
      idx.Sorted (· ≤ ·) ∧
      (∀ i, i ∈ idx ↔ i ∈ matchIdx tcol posV ∨
        i ∈ sampler (sampleFrac data tcol posV) (matchIdx tcol negV)) ∧
      (∀ i ∈ idx, i ∈ matchIdx tcol posV ∨ i ∈ matchIdx tcol negV) := by
  refine ⟨pdIndexUnion (matchIdx tcol posV)
    (sampler (sampleFrac data tcol posV) (matchIdx tcol negV)), ?_, rfl, ?_, ?_, ?_, ?_, ?_⟩
  · simp only [negative_down_sample, hcol]
    rw [if_neg hrow, if_neg hp1, if_neg (not_lt.mpr hfrac)]
  · intro i hi
    exact (pdIndexUnion_mem _ _ i).mpr (Or.inl hi)
  · exact pdIndexUnion_nodup _ _
  · exact pdIndexUnion_sorted _ _
  · intro i
    exact pdIndexUnion_mem _ _ i
  · intro i hi
    rcases (pdIndexUnion_mem _ _ i).mp hi with h | h
    · exact Or.inl h
    · exact Or.inr (hsub i h)

/-- C8: when the computed sampling fraction `pos_ratio / (1 - pos_ratio)`
exceeds `1` (the ratios being defined), `negative_down_sample` raises the
sampling operation's `ValueError` for oversampling without replacement rather
than returning a table. -/
theorem negative_down_sample_over_frac (data : DataFrame) (target : String)
    (posV negV : Value) (sampler : ℚ → List Nat → List Nat) (tcol : List Cell)
    (hcol : data.getCol? target = some tcol)
    (hrow : data.nrow ≠ 0)
    (hp1 : posRatio data tcol posV ≠ 1)
    (hfrac : 1 < sampleFrac data tcol posV) :
    negative_down_sample data target posV negV sampler = .error .valueError := by
  simp only [negative_down_sample, hcol]
  rw [if_neg hrow, if_neg hp1, if_pos hfrac]


/-- Witness for `negative_down_sample_spec`: the ten-row example (three
positive, seven negative rows), the sampler picking the first three negative
rows. -/
theorem negative_down_sample_spec_witness :
    ∃ idx,
      negative_down_sample tenRowData "TARGET" (.vInt 1) (.vInt 0)
          (fun _ l => l.take 3) = .ok (selectRows tenRowData idx) ∧
      idx = pdIndexUnion (matchIdx tenRowTarget (.vInt 1))
        ((fun _ l => l.take 3) (sampleFrac tenRowData tenRowTarget (.vInt 1))
          (matchIdx tenRowTarget (.vInt 0))) ∧
      (∀ i ∈ matchIdx tenRowTarget (.vInt 1), i ∈ idx) ∧
      idx.Nodup ∧
      idx.Sorted (· ≤ ·) ∧
      (∀ i, i ∈ idx ↔ i ∈ matchIdx tenRowTarget (.vInt 1) ∨
        i ∈ (fun _ l => l.take 3) (sampleFrac tenRowData tenRowTarget (.vInt 1))
          (matchIdx tenRowTarget (.vInt 0))) ∧
      (∀ i ∈ idx, i ∈ matchIdx tenRowTarget (.vInt 1) ∨
        i ∈ matchIdx tenRowTarget (.vInt 0)) :=
  negative_down_sample_spec tenRowData "TARGET" (.vInt 1) (.vInt 0)
    (fun _ l => l.take 3) tenRowTarget rfl (by decide)
    (by
      unfold posRatio
      rw [show (matchIdx tenRowTarget (Value.vInt 1)).length = 3 by decide,
        show tenRowData.nrow = 10 by decide]
      norm_num)
    (by
      unfold sampleFrac posRatio
      rw [show (matchIdx tenRowTarget (Value.vInt 1)).length = 3 by decide,
        show tenRowData.nrow = 10 by decide]
      norm_num)
    (by decide) (by decide)

/-- Witness for `negative_down_sample_over_frac`: two positive rows and one
negative row give `pos_ratio = 2/3` and `frac = 2 > 1`. -/
theorem negative_down_sample_over_frac_witness :
    negative_down_sample threeRowData "TARGET" (.vInt 1) (.vInt 0) (fun _ l => l) =
      .error .valueError :=
  negative_down_sample_over_frac threeRowData "TARGET" (.vInt 1) (.vInt 0)
    (fun _ l => l) threeRowTarget rfl (by decide)
    (by
      unfold posRatio
      rw [show (matchIdx threeRowTarget (Value.vInt 1)).length = 2 by decide,
        show threeRowData.nrow = 3 by decide]
      norm_num)
    (by
      unfold sampleFrac posRatio
      rw [show (matchIdx threeRowTarget (Value.vInt 1)).length = 2 by decide,
        show threeRowData.nrow = 3 by decide]
      norm_num)

/-- Missing and non-missing cells together exhaust a column. -/
theorem countP_isNone_add_isSome (xs : List Cell) :
    xs.countP (fun c => c.isNone) + xs.countP (fun c => c.isSome) = xs.length := by
  induction xs with
  | nil => rfl
  | cons x xs ih =>
    cases x <;> simp [List.countP_cons] <;> omega

/-- A column with no non-missing cell has no values at all. -/
theorem filterMap_id_eq_nil (xs : List Cell)
    (h : xs.countP (fun c => c.isSome) = 0) : xs.filterMap id = [] := by
  induction xs with
  | nil => rfl
  | cons x xs ih =>
    cases x with
    | none =>
      rw [List.countP_cons] at h
      simp at h
      show List.filterMap id xs = []
      refine ih (List.countP_eq_zero.mpr ?_)
      intro a ha
      rw [h a ha]
      simp
    | some v =>
      rw [List.countP_cons] at h
      simp at h

/-- C7: the `frame_info` summary has exactly one row per input column, and for
a rectangular table `num_nan + num_notnan` equals the table's row count in
every summary row; with `styling=False` the function returns exactly this
summary. -/
theorem frame_info_shape (frame : DataFrame) (n_samples : Nat)
    (before_styling : List ColInfo → List ColInfo) (sampleIdx : List Nat)
    (hrect : frame.Rect) :
    frame_info frame n_samples false before_styling sampleIdx =
      .raw (frame_info_res frame n_samples sampleIdx) ∧
    (frame_info_res frame n_samples sampleIdx).length = frame.ncol ∧
    ∀ info ∈ frame_info_res frame n_samples sampleIdx,
      info.num_nan + info.num_notnan = frame.nrow := by
  refine ⟨rfl, ?_, ?_⟩
  · unfold frame_info_res DataFrame.ncol
    exact List.length_map _ _
  · intro info hinfo
    unfold frame_info_res at hinfo
    obtain ⟨p, hp, rfl⟩ := List.mem_map.mp hinfo
    show p.2.countP (fun c => c.isNone) + p.2.countP (fun c => c.isSome) = frame.nrow
    rw [← hrect p hp]
    exact countP_isNone_add_isSome p.2

/-- Witness for `frame_info_shape`: a rectangular two-column table with mixed
missing entries. -/
theorem frame_info_shape_witness :
    frame_info ⟨[("a", [some (.vInt 1), none]), ("b", [none, none])]⟩ 33 false id [] =
      .raw (frame_info_res ⟨[("a", [some (.vInt 1), none]), ("b", [none, none])]⟩ 33 []) ∧
    (frame_info_res ⟨[("a", [some (.vInt 1), none]), ("b", [none, none])]⟩ 33 []).length =
      (⟨[("a", [some (.vInt 1), none]), ("b", [none, none])]⟩ : DataFrame).ncol ∧
    ∀ info ∈ frame_info_res ⟨[("a", [some (.vInt 1), none]), ("b", [none, none])]⟩ 33 [],
      info.num_nan + info.num_notnan =
        (⟨[("a", [some (.vInt 1), none]), ("b", [none, none])]⟩ : DataFrame).nrow :=
  frame_info_shape ⟨[("a", [some (.vInt 1), none]), ("b", [none, none])]⟩ 33 id []
    (by
      intro p hp
      cases hp with
      | head => rfl
      | tail _ hp2 =>
        cases hp2 with
        | head => rfl
        | tail _ hp3 => cases hp3)

/-- C4: every row of the `frame_info` summary satisfies
`frac_unique = num_unique / num_notnan` and `frac_nan = num_nan / row_count`
exactly, under the numpy conventions for a zero denominator; in particular an
all-null column (`num_notnan = 0`, hence `num_unique = 0`) gets
`frac_unique = NaN` (0/0), and the identities hold as stated for all-unique
columns. -/
theorem frame_info_fracs (frame : DataFrame) (n_samples : Nat) (sampleIdx : List Nat) :
    ∀ info ∈ frame_info_res frame n_samples sampleIdx,
      info.frac_unique = pdivNat info.num_unique info.num_notnan ∧
      info.frac_nan = pdivNat info.num_nan frame.nrow ∧
      (info.num_notnan = 0 → info.frac_unique = PFloat.nan) := by
  intro info hinfo
  unfold frame_info_res at hinfo
  obtain ⟨p, hp, rfl⟩ := List.mem_map.mp hinfo
  refine ⟨rfl, rfl, ?_⟩
  intro h0
  show pdivNat (firstUniques (p.2.filterMap id)).length
    (p.2.countP (fun c => c.isSome)) = PFloat.nan
  have hz : p.2.countP (fun c => c.isSome) = 0 := h0
  rw [hz, filterMap_id_eq_nil p.2 hz]
  rfl

/-- Witness for `frame_info_fracs`: taken at the all-null column of a table
that also has an all-unique column. -/
theorem frame_info_fracs_witness :
    ∃ info,
      info ∈ frame_info_res
        ⟨[("n", [none, none]), ("u", [some (.vInt 1), some (.vInt 2)])]⟩ 33 [] ∧
      info.frac_unique = pdivNat info.num_unique info.num_notnan ∧
      info.frac_nan = pdivNat info.num_nan
        (⟨[("n", [none, none]), ("u", [some (.vInt 1), some (.vInt 2)])]⟩ : DataFrame).nrow ∧
      (info.num_notnan = 0 → info.frac_unique = PFloat.nan) :=
  ⟨_, List.mem_cons_self _ _,
    frame_info_fracs ⟨[("n", [none, none]), ("u", [some (.vInt 1), some (.vInt 2)])]⟩ 33 []
      _ (List.mem_cons_self _ _)⟩
